import Mathlib

/-!
Verification development for the Winscope trace-ingestion core of
platform_development: the parser factory (parser selection and conflict
arbitration), the TracePipeline orchestrator's loadTraceFiles, the
hierarchy/property tree diff engine of the SurfaceFlinger viewer
presenter, and the AddRootProperties operation of the transitions parser.

The definitions below are a shallow embedding of the TypeScript source:
TypeScript classes become Lean structures, the per-type JS Map becomes an
association list with JS Map set/get semantics, exceptions become
Except/Option, and the asynchronous trial parsing of each parser variant
is abstracted as a function from the trace file to an Except value
(construction plus parse either succeeds with a parser, or throws).
-/

set_option autoImplicit false

namespace Winscope

/-- Embedding of TraceFile: an opaque named blob; getDescriptor() is the
descriptor field. -/
structure TraceFile where
  name : String
  descriptor : String
deriving DecidableEq, Repr

/-- Embedding of an accepted Parser object, keeping exactly the observers
used by ParserFactory: getTraceType(), getDescriptors(), getLengthEntries().
TraceType enum values are embedded as naturals. -/
structure Parser where
  traceType : Nat
  descriptors : List String
  lengthEntries : Nat
deriving DecidableEq, Repr

/-- Embedding of the ParserErrorType enum of the parser factory source. -/
inductive ParserErrorType where
  | CORRUPTED_ARCHIVE
  | NO_INPUT_FILES
  | UNSUPPORTED_FORMAT
  | OVERRIDE
deriving DecidableEq, Repr

/-- Embedding of the ParserError class: a tag plus optional trace
descriptor string and optional trace type. -/
structure ParserError where
  type : ParserErrorType
  trace : Option String := none
  traceType : Option Nat := none
deriving DecidableEq, Repr

/-- Embedding of Array.prototype.join() as used on getDescriptors():
joins with a comma separator. -/
def descriptorsJoin (p : Parser) : String :=
  String.intercalate "," p.descriptors

/-- The per-type parser map (a JS Map from TraceType to Parser),
embedded as an association list in insertion order. -/
abbrev ParserMap := List (Nat × Parser)

/-- Embedding of Map.prototype.get. -/
def mapGet (m : ParserMap) (k : Nat) : Option Parser :=
  match m with
  | [] => none
  | (k', v) :: rest => if k' = k then some v else mapGet rest k

/-- Embedding of Map.prototype.set: replaces the value of an existing key
in place, otherwise appends the new entry. -/
def mapSet (m : ParserMap) (k : Nat) (v : Parser) : ParserMap :=
  match m with
  | [] => [(k, v)]
  | (k', v') :: rest => if k' = k then (k, v) :: rest else (k', v') :: mapSet rest k v

/-- The mutable state threaded through createParsers: the instance field
this.parsers (per-type map) together with the two local accumulators of
createParsers, the accepted (file, parser) pairs and the ParserError list. -/
structure FactoryState where
  parsers : ParserMap
  pairs : List (TraceFile × Parser)
  errors : List ParserError
deriving DecidableEq, Repr

/-- Fresh factory: empty map, no pairs, no errors. -/
def initialFactoryState : FactoryState := ⟨[], [], []⟩

/-- Embedding of ParserFactory.shouldUseParser: looks up the previously
accepted parser of the new parser's trace type; with no incumbent the new
parser is accepted silently; with an incumbent, strictly more entries win
and push one OVERRIDE error for the loser. Returns the decision together
with the extended error list. -/
def shouldUseParser (parsers : ParserMap) (newParser : Parser)
    (errors : List ParserError) : Bool × List ParserError :=
  match mapGet parsers newParser.traceType with
  | none => (true, errors)
  | some oldParser =>
    if oldParser.lengthEntries < newParser.lengthEntries then
      (true, errors ++
        [⟨ParserErrorType.OVERRIDE, some (descriptorsJoin oldParser),
          some oldParser.traceType⟩])
    else
      (false, errors ++
        [⟨ParserErrorType.OVERRIDE, some (descriptorsJoin newParser),
          some newParser.traceType⟩])

/-- Embedding of the maybeAddParser closure of createParsers: when
shouldUseParser accepts, stores the parser in the per-type map and appends
the (file, parser) pair. -/
def maybeAddParser (st : FactoryState) (p : Parser) (f : TraceFile) : FactoryState :=
  match shouldUseParser st.parsers p st.errors with
  | (useParser, errors) =>
    if useParser then
      ⟨mapSet st.parsers p.traceType p, st.pairs ++ [(f, p)], errors⟩
    else
      ⟨st.parsers, st.pairs, errors⟩

/-- Outcome of one successful parser-variant trial: a plain parser, or the
ParserViewCapture fan-out into one parser per window. -/
inductive TrialResult where
  | single (p : Parser)
  | viewCapture (windowParsers : List Parser)
deriving DecidableEq, Repr

/-- A parser variant of ParserFactory.PARSERS, abstracted by its trial
behaviour: constructing the variant on the file and awaiting parse()
either succeeds with a trial result or throws (Except.error). -/
abbrev Variant := TraceFile → Except String TrialResult

/-- Embedding of the inner variant loop of createParsers, with the
try/catch made explicit in the Except monad: a throwing variant is caught
and the next variant is tried; a successful variant ends the loop;
exhausting the list leaves hasFoundParser false (embedded as none). -/
def tryVariantsExc : List Variant → TraceFile → Except String (Option TrialResult)
  | [], _ => Except.ok none
  | v :: rest, f =>
    match v f with
    | Except.ok r => Except.ok (some r)
    | Except.error _ => tryVariantsExc rest f

/-- Total form of the variant loop: the catch swallows every exception, so
the loop is a total function to Option. -/
def tryVariants : List Variant → TraceFile → Option TrialResult
  | [], _ => none
  | v :: rest, f =>
    match v f with
    | Except.ok r => some r
    | Except.error _ => tryVariants rest f

/-- The UNSUPPORTED_FORMAT error pushed when no variant accepts a file. -/
def unsupportedError (f : TraceFile) : ParserError :=
  ⟨ParserErrorType.UNSUPPORTED_FORMAT, some f.descriptor, none⟩

/-- Embedding of one iteration of the outer file loop of createParsers,
after the progress update: try the variants in order; on a plain success
run maybeAddParser once; on a ParserViewCapture success run maybeAddParser
on each window parser; with no success push one UNSUPPORTED_FORMAT error
for the file. -/
def processFile (variants : List Variant) (st : FactoryState) (f : TraceFile) :
    FactoryState :=
  match tryVariants variants f with
  | some (TrialResult.single p) => maybeAddParser st p f
  | some (TrialResult.viewCapture ws) =>
    ws.foldl (fun s w => maybeAddParser s w f) st
  | none => ⟨st.parsers, st.pairs, st.errors ++ [unsupportedError f]⟩

/-- The outer file loop without the observational progress reporting. -/
def processFiles (variants : List Variant) (st : FactoryState) :
    List TraceFile → FactoryState
  | [] => st
  | f :: rest => processFiles variants (processFile variants st f) rest

/-- Embedding of the full createParsers loop, threading an arbitrary
progress listener of state type L: before each file the listener receives
the label and the percentage (index / number of files) * 100, exactly as
the source computes it. -/
def createParsersLoop {L : Type} (onProgress : L → String → ℚ → L)
    (variants : List Variant) (total : Nat) :
    Nat → L → FactoryState → List TraceFile → FactoryState × L
  | _, l, st, [] => (st, l)
  | idx, l, st, f :: rest =>
    let l' := onProgress l "Parsing proto files" (((idx : ℚ) / (total : ℚ)) * 100)
    createParsersLoop onProgress variants total (idx + 1) l'
      (processFile variants st f) rest

/-- Embedding of ParserFactory.createParsers on a fresh factory, with the
progress listener omitted: returns the accepted (file, parser) pairs and
the accumulated ParserError batch. -/
def createParsers (variants : List Variant) (files : List TraceFile) :
    List (TraceFile × Parser) × List ParserError :=
  let st := (createParsersLoop (fun (u : Unit) _ _ => u) variants files.length 0 ()
      initialFactoryState files).1
  (st.pairs, st.errors)

/-- Embedding of createParsers in the Except monad, keeping the exception
channel of the trial parsing visible: the only handler is the try/catch
inside the variant loop. -/
def createParsersExcLoop (variants : List Variant) :
    FactoryState → List TraceFile → Except String FactoryState
  | st, [] => Except.ok st
  | st, f :: rest => do
    let r ← tryVariantsExc variants f
    let st' :=
      match r with
      | some (TrialResult.single p) => maybeAddParser st p f
      | some (TrialResult.viewCapture ws) =>
        ws.foldl (fun s w => maybeAddParser s w f) st
      | none => ⟨st.parsers, st.pairs, st.errors ++ [unsupportedError f]⟩
    createParsersExcLoop variants st' rest

/-- Except-monad form of createParsers on a fresh factory. -/
def createParsersExc (variants : List Variant) (files : List TraceFile) :
    Except String (List (TraceFile × Parser) × List ParserError) :=
  (createParsersExcLoop variants initialFactoryState files).map
    (fun st => (st.pairs, st.errors))

/-- Embedding of the result of TraceFileFilter.filter as TracePipeline
consumes it: the optional perfetto (unified-format) bundle, the discrete
(legacy) files, and the errors accumulated during classification. The
filter itself is an external collaborator outside the excerpt. -/
structure FilterResult where
  perfetto : Option TraceFile
  legacy : List TraceFile
  errors : List ParserError
deriving DecidableEq, Repr

/-- The external collaborators of TracePipeline, abstracted by behaviour:
the file classifier, the perfetto parser factory, the traces (derived)
parser factory, and the trial behaviour of the legacy parser variants.
The transition TraceType enum values are opaque naturals carried here. -/
structure PipelineEnv where
  filter : List TraceFile → FilterResult
  perfettoCreateParsers : TraceFile → List Parser
  tracesCreateParsers : List Parser → List Parser
  variants : List Variant
  TRANSITION : Nat
  WM_TRANSITION : Nat
  SHELL_TRANSITION : Nat

/-- Embedding of Map.prototype.set on the TraceType-to-TraceFile map. -/
def filesMapSet (m : List (Nat × TraceFile)) (k : Nat) (v : TraceFile) :
    List (Nat × TraceFile) :=
  match m with
  | [] => [(k, v)]
  | (k', v') :: rest =>
    if k' = k then (k, v) :: rest else (k', v') :: filesMapSet rest k v

/-- Embedding of Traces.deleteTrace (Map.prototype.delete). -/
def mapDelete (m : ParserMap) (k : Nat) : ParserMap :=
  m.filter (fun e => e.1 ≠ k)

/-- The mutable fields of TracePipeline observed by loadTraceFiles: the
legacy parser factory's persistent per-type map, this.parsers, this.files
and this.traces (each Trace held as the parser it was built from, since
Trace.newUninitializedTrace wraps exactly one parser). -/
structure TracePipelineState where
  factoryParsers : ParserMap
  parsers : List Parser
  files : List (Nat × TraceFile)
  traces : List (Nat × Parser)
deriving DecidableEq, Repr

/-- A fresh TracePipeline. -/
def initialTracePipelineState : TracePipelineState := ⟨[], [], [], []⟩

/-- Embedding of TracePipeline.loadTraceFiles: classify; with no perfetto
bundle and no legacy files return exactly one NO_INPUT_FILES error and
leave the state untouched; otherwise start from the classifier's errors,
append perfetto parsers when a bundle exists, run the legacy factory over
the discrete files (appending its errors and recording each accepted
file under its parser's trace type), run the derived traces factory over
the combined parsers, rebuild the traces collection from scratch, and
drop the WM and shell transition traces when a unified transition trace
is present. The progress listener is omitted here: it is observational
only (progress_listener_noninterference). -/
def loadTraceFiles (env : PipelineEnv) (st : TracePipelineState)
    (traceFiles : List TraceFile) : List ParserError × TracePipelineState :=
  let filterResult := env.filter traceFiles
  if filterResult.perfetto = none ∧ filterResult.legacy = [] then
    ([⟨ParserErrorType.NO_INPUT_FILES, none, none⟩], st)
  else
    let errors := filterResult.errors
    let parsers1 :=
      match filterResult.perfetto with
      | some pf => st.parsers ++ env.perfettoCreateParsers pf
      | none => st.parsers
    let legacyResult :=
      processFiles env.variants ⟨st.factoryParsers, [], []⟩ filterResult.legacy
    let errors := errors ++ legacyResult.errors
    let files' := legacyResult.pairs.foldl
      (fun m fp => filesMapSet m fp.2.traceType fp.1) st.files
    let newParsers := legacyResult.pairs.map (fun fp => fp.2)
    let parsers2 := parsers1 ++ newParsers
    let tracesParsers := env.tracesCreateParsers parsers2
    let allParsers := parsers2 ++ tracesParsers
    let traces1 := allParsers.foldl (fun m p => mapSet m p.traceType p) []
    let traces2 :=
      if traces1.any (fun e => e.1 == env.TRANSITION) then
        mapDelete (mapDelete traces1 env.WM_TRANSITION) env.SHELL_TRANSITION
      else traces1
    (errors, ⟨legacyResult.parsers, parsers2, files', traces2⟩)

/-- Embedding of the PropertySource enum: directly decoded (PROTO),
defaulted, or derived (CALCULATED). -/
inductive PropertySource where
  | PROTO
  | DEFAULT
  | CALCULATED
deriving DecidableEq, Repr

/-- Embedding of a UiPropertyTreeNode: stable id, name, source tag, raw
value (getValue, embedded as an integer), rendered display value
(formattedValue), and the child properties in order. -/
inductive PropertyTreeNode where
  | node (id : String) (name : String) (source : PropertySource)
      (value : Int) (formatted : String)
      (children : List PropertyTreeNode)

namespace PropertyTreeNode

def id : PropertyTreeNode → String
  | node i _ _ _ _ _ => i

def name : PropertyTreeNode → String
  | node _ n _ _ _ _ => n

def source : PropertyTreeNode → PropertySource
  | node _ _ s _ _ _ => s

def getValue : PropertyTreeNode → Int
  | node _ _ _ v _ _ => v

def formattedValue : PropertyTreeNode → String
  | node _ _ _ _ fv _ => fv

def getAllChildren : PropertyTreeNode → List PropertyTreeNode
  | node _ _ _ _ _ cs => cs

/-- Embedding of getChildByName: the first child carrying the given name. -/
def getChildByName (t : PropertyTreeNode) (n : String) : Option PropertyTreeNode :=
  t.getAllChildren.find? (fun c => c.name == n)

end PropertyTreeNode

/-- Embedding of Presenter.DENYLIST_PROPERTY_NAMES. -/
def DENYLIST_PROPERTY_NAMES : List String :=
  ["name", "children", "dpiX", "dpiY"]

/-- Embedding of Presenter.isPropertyNodeModified: absent on both sides is
unmodified, absent on exactly one side is modified, and two present nodes
are compared by their rendered display value alone. -/
def isPropertyNodeModified :
    Option PropertyTreeNode → Option PropertyTreeNode → Bool
  | none, none => false
  | none, some _ => true
  | some _, none => true
  | some newTree, some oldTree =>
    oldTree.formattedValue != newTree.formattedValue

mutual

/-- Embedding of Presenter.isChildPropertyModified: walks the children of
the new property node, skipping deny-listed names and CALCULATED sources;
a non-excluded child with no same-name counterpart in the old node is a
modification; leaf children are compared by isPropertyNodeModified and
non-leaf children recurse. -/
def isChildPropertyModified (newProperties oldProperties : PropertyTreeNode) :
    Bool :=
  match newProperties with
  | PropertyTreeNode.node _ _ _ _ _ cs => checkChildrenModified cs oldProperties

/-- The for-loop body of isChildPropertyModified over the remaining new
children. -/
def checkChildrenModified :
    List PropertyTreeNode → PropertyTreeNode → Bool
  | [], _ => false
  | newProperty :: rest, oldProperties =>
    if DENYLIST_PROPERTY_NAMES.contains newProperty.name then
      checkChildrenModified rest oldProperties
    else if newProperty.source == PropertySource.CALCULATED then
      checkChildrenModified rest oldProperties
    else
      match oldProperties.getChildByName newProperty.name with
      | none => true
      | some oldProperty =>
        if newProperty.getAllChildren.length == 0 then
          if isPropertyNodeModified (some newProperty) (some oldProperty) then
            true
          else
            checkChildrenModified rest oldProperties
        else
          if isChildPropertyModified newProperty oldProperty then
            true
          else
            checkChildrenModified rest oldProperties

end

/-- Embedding of a UiHierarchyTreeNode as far as the modification check
observes it: whether it is the root, and its property subtree
(getAllProperties). -/
structure HierarchyTreeNode where
  isRoot : Bool
  properties : PropertyTreeNode

/-- Embedding of Presenter.isHierarchyTreeModified: both absent is
unmodified, exactly one absent is modified, a root is never modified, and
otherwise the property subtrees decide. -/
def isHierarchyTreeModified :
    Option HierarchyTreeNode → Option HierarchyTreeNode → Bool
  | none, none => false
  | none, some _ => true
  | some _, none => true
  | some newTree, some oldTree =>
    if newTree.isRoot then false
    else isChildPropertyModified newTree.properties oldTree.properties

/-- Embedding of
DEFAULT_PROPERTY_TREE_NODE_FACTORY.makeCalculatedProperty (declared
outside the excerpt; its contract is a fresh leaf property rooted under
the given id, carrying the given name and value with source CALCULATED
and no children). The rendered value of a fresh calculated property is
irrelevant to the claims and embedded as the empty string. -/
def makeCalculatedProperty (rootId propertyName : String) (v : Int) :
    PropertyTreeNode :=
  PropertyTreeNode.node (rootId ++ "." ++ propertyName) propertyName
    PropertySource.CALCULATED v "" []

/-- Embedding of AddRootProperties.makeProperties: assertDefined failures
become none; the id falls back from wmData to shellData, the
realToElapsedTimeOffsetNs falls back from shellData to wmData unless an
aborted child is present, in which case wmData is preferred. -/
def makeProperties (value : PropertyTreeNode) : Option (List PropertyTreeNode) := do
  let wmData ← value.getChildByName "wmData"
  let shellData ← value.getChildByName "shellData"
  let idChild ←
    match wmData.getChildByName "id" with
    | some c => some c
    | none => shellData.getChildByName "id"
  let rootIdNode := makeCalculatedProperty value.id "id" idChild.getValue
  let offsetChild ←
    match value.getChildByName "aborted" with
    | some _ =>
      match wmData.getChildByName "realToElapsedTimeOffsetNs" with
      | some c => some c
      | none => shellData.getChildByName "realToElapsedTimeOffsetNs"
    | none =>
      match shellData.getChildByName "realToElapsedTimeOffsetNs" with
      | some c => some c
      | none => wmData.getChildByName "realToElapsedTimeOffsetNs"
  let realToElapsedTimeOffsetNsNode :=
    makeCalculatedProperty value.id "realToElapsedTimeOffsetNs"
      offsetChild.getValue
  return [rootIdNode, realToElapsedTimeOffsetNsNode]

/-! ## Basic lemmas about the per-type parser map -/

theorem mapGet_mapSet_self (m : ParserMap) (k : Nat) (v : Parser) :
    mapGet (mapSet m k v) k = some v := by
  induction m with
  | nil => simp [mapSet, mapGet]
  | cons e rest ih =>
    obtain ⟨k', v'⟩ := e
    by_cases hk : k' = k
    · simp [mapSet, mapGet, hk]
    · simp [mapSet, mapGet, hk, ih]

theorem mapGet_mapSet_absent (m : ParserMap) (k : Nat) (v : Parser)
    (h : mapGet m k = none) : mapSet m k v = m ++ [(k, v)] := by
  induction m with
  | nil => simp [mapSet]
  | cons e rest ih =>
    obtain ⟨k', v'⟩ := e
    by_cases hk : k' = k
    · simp [mapGet, hk] at h
    · simp [mapGet, hk] at h
      simp [mapSet, hk, ih h]

theorem mapGet_append_single (m : ParserMap) (k k' : Nat) (v : Parser)
    (h : mapGet m k' = none) :
    mapGet (m ++ [(k, v)]) k' = if k = k' then some v else none := by
  induction m with
  | nil => simp [mapGet]
  | cons e rest ih =>
    obtain ⟨k0, v0⟩ := e
    by_cases hk : k0 = k'
    · simp [mapGet, hk] at h
    · simp [mapGet, hk] at h ⊢
      exact ih h

/-- C1: conflict arbitration. With an incumbent parser of the same trace
type, a newly accepted parser with strictly more entries replaces the
incumbent in the per-type map, is recorded as the file's parser, and
exactly one OVERRIDE error carrying the incumbent's joined descriptors and
trace type is appended; with fewer or equal entries (ties included) the
incumbent is kept, the new parser is rejected (map and pair list
unchanged), and exactly one OVERRIDE error carrying the new parser's
joined descriptors and trace type is appended. -/
theorem conflict_arbitration_shouldUseParser (st : FactoryState)
    (newParser oldParser : Parser) (f : TraceFile)
    (h : mapGet st.parsers newParser.traceType = some oldParser) :
    (oldParser.lengthEntries < newParser.lengthEntries →
      maybeAddParser st newParser f =
        ⟨mapSet st.parsers newParser.traceType newParser,
         st.pairs ++ [(f, newParser)],
         st.errors ++ [⟨ParserErrorType.OVERRIDE,
           some (descriptorsJoin oldParser), some oldParser.traceType⟩]⟩ ∧
      mapGet (mapSet st.parsers newParser.traceType newParser)
          newParser.traceType = some newParser) ∧
    (¬ oldParser.lengthEntries < newParser.lengthEntries →
      maybeAddParser st newParser f =
        ⟨st.parsers, st.pairs,
         st.errors ++ [⟨ParserErrorType.OVERRIDE,
           some (descriptorsJoin newParser), some newParser.traceType⟩]⟩) := by
  constructor
  · intro hlt
    constructor
    · simp [maybeAddParser, shouldUseParser, h, hlt]
    · exact mapGet_mapSet_self _ _ _
  · intro hge
    simp [maybeAddParser, shouldUseParser, h, hge]

theorem conflict_arbitration_shouldUseParser_witness :
    (mapGet (⟨[(7, ⟨7, ["old.pb"], 1⟩)], [], []⟩ : FactoryState).parsers
        (Parser.mk 7 ["new.pb"] 2).traceType = some ⟨7, ["old.pb"], 1⟩) ∧
    (Parser.mk 7 ["old.pb"] 1).lengthEntries <
      (Parser.mk 7 ["new.pb"] 2).lengthEntries ∧
    maybeAddParser ⟨[(7, ⟨7, ["old.pb"], 1⟩)], [], []⟩ ⟨7, ["new.pb"], 2⟩
        ⟨"new", "new.pb"⟩ =
      ⟨mapSet [(7, ⟨7, ["old.pb"], 1⟩)] 7 ⟨7, ["new.pb"], 2⟩,
       [] ++ [(⟨"new", "new.pb"⟩, ⟨7, ["new.pb"], 2⟩)],
       [] ++ [⟨ParserErrorType.OVERRIDE, some (descriptorsJoin ⟨7, ["old.pb"], 1⟩),
         some 7⟩]⟩ ∧
    mapGet (mapSet [(7, ⟨7, ["old.pb"], 1⟩)] 7 ⟨7, ["new.pb"], 2⟩) 7 =
      some ⟨7, ["new.pb"], 2⟩ := by
  refine ⟨by decide, by decide, ?_⟩
  have h := (conflict_arbitration_shouldUseParser
    ⟨[(7, ⟨7, ["old.pb"], 1⟩)], [], []⟩ ⟨7, ["new.pb"], 2⟩ ⟨7, ["old.pb"], 1⟩
    ⟨"new", "new.pb"⟩ (by decide)).1 (by decide)
  exact h

/-- C5: a root node is never itself flagged as modified: for every pair of
hierarchy trees, when the new node is a root the modification check
returns false, regardless of either property subtree. -/
theorem root_never_modified (n o : HierarchyTreeNode) (h : n.isRoot = true) :
    isHierarchyTreeModified (some n) (some o) = false := by
  simp [isHierarchyTreeModified, h]

theorem root_never_modified_witness :
    (HierarchyTreeNode.mk true
        (PropertyTreeNode.node "r" "r" PropertySource.PROTO 0 "0" [])).isRoot
      = true ∧
    isHierarchyTreeModified
      (some ⟨true, PropertyTreeNode.node "r" "r" PropertySource.PROTO 0 "0" []⟩)
      (some ⟨false,
        PropertyTreeNode.node "r" "r" PropertySource.PROTO 1 "1"
          [PropertyTreeNode.node "r.x" "x" PropertySource.PROTO 1 "1" []]⟩)
      = false :=
  ⟨rfl, root_never_modified _ _ rfl⟩

/-- C7: no-input behaviour of TracePipeline.loadTraceFiles. When the
classifier finds no usable input on the given files (no perfetto bundle
and no legacy file, as it yields for an empty file list or files that are
all unusable), the load on a fresh pipeline returns exactly one
NO_INPUT_FILES error and leaves the pipeline untouched: the trace
collection stays empty and no (file, parser) pair is produced. -/
theorem no_input_files_single_error (env : PipelineEnv)
    (traceFiles : List TraceFile)
    (hperfetto : (env.filter traceFiles).perfetto = none)
    (hlegacy : (env.filter traceFiles).legacy = []) :
    loadTraceFiles env initialTracePipelineState traceFiles =
      ([⟨ParserErrorType.NO_INPUT_FILES, none, none⟩],
       initialTracePipelineState) ∧
    (loadTraceFiles env initialTracePipelineState traceFiles).2.traces = [] ∧
    (loadTraceFiles env initialTracePipelineState traceFiles).2.parsers = [] ∧
    (loadTraceFiles env initialTracePipelineState traceFiles).2.files = [] := by
  have heq : loadTraceFiles env initialTracePipelineState traceFiles =
      ([⟨ParserErrorType.NO_INPUT_FILES, none, none⟩],
       initialTracePipelineState) := by
    simp [loadTraceFiles, hperfetto, hlegacy]
  exact ⟨heq, by rw [heq]; rfl, by rw [heq]; rfl, by rw [heq]; rfl⟩

/-- A concrete environment whose classifier finds nothing usable. -/
def emptyPipelineEnv : PipelineEnv :=
  ⟨fun _ => ⟨none, [], []⟩, fun _ => [], fun _ => [], [], 25, 23, 24⟩

theorem no_input_files_single_error_witness :
    (emptyPipelineEnv.filter []).perfetto = none ∧
    (emptyPipelineEnv.filter []).legacy = [] ∧
    loadTraceFiles emptyPipelineEnv initialTracePipelineState [] =
      ([⟨ParserErrorType.NO_INPUT_FILES, none, none⟩],
       initialTracePipelineState) ∧
    (loadTraceFiles emptyPipelineEnv initialTracePipelineState []).2.traces
      = [] :=
  ⟨rfl, rfl, (no_input_files_single_error emptyPipelineEnv [] rfl rfl).1,
   (no_input_files_single_error emptyPipelineEnv [] rfl rfl).2.1⟩

/-! ## Progress listener noninterference -/

theorem createParsersLoop_fst {L : Type} (onProgress : L → String → ℚ → L)
    (variants : List Variant) (total : Nat) (files : List TraceFile) :
    ∀ (idx : Nat) (l : L) (st : FactoryState),
      (createParsersLoop onProgress variants total idx l st files).1 =
        processFiles variants st files := by
  induction files with
  | nil => intro idx l st; rfl
  | cons f rest ih =>
    intro idx l st
    simp only [createParsersLoop, processFiles]
    exact ih _ _ _

/-- The canonical event-collecting listener. -/
def collectProgress (l : List (String × ℚ)) (label : String) (pct : ℚ) :
    List (String × ℚ) :=
  l ++ [(label, pct)]

theorem createParsersLoop_events (variants : List Variant) (total : Nat)
    (files : List TraceFile) :
    ∀ (idx : Nat) (l : List (String × ℚ)) (st : FactoryState),
      (createParsersLoop collectProgress variants total idx l st files).2 =
        l ++ (List.range files.length).map
          (fun i => ("Parsing proto files",
            (((idx + i : Nat) : ℚ) / (total : ℚ)) * 100)) := by
  induction files with
  | nil => intro idx l st; simp [createParsersLoop]
  | cons f rest ih =>
    intro idx l st
    simp only [createParsersLoop, collectProgress]
    rw [ih]
    simp only [List.length_cons, List.range_succ_eq_map, List.map_cons,
      List.map_map, List.append_assoc]
    congr 1
    simp only [Nat.add_zero, List.singleton_append]
    congr 1
    apply List.map_congr_left
    intro i _
    simp only [Function.comp_apply]
    congr 2
    push_cast
    ring

/-- C10: the (parsers, errors) outcome of createParsers is identical for
every progress listener (in particular, supplied or omitted); the listener
only observes, for each file in order, the label "Parsing proto files"
with percentage (index / number of files) * 100. -/
theorem progress_listener_noninterference :
    (∀ (L : Type) (onProgress : L → String → ℚ → L) (l0 : L)
        (variants : List Variant) (files : List TraceFile),
      ((createParsersLoop onProgress variants files.length 0 l0
          initialFactoryState files).1.pairs,
       (createParsersLoop onProgress variants files.length 0 l0
          initialFactoryState files).1.errors) =
        createParsers variants files) ∧
    (∀ (variants : List Variant) (files : List TraceFile),
      (createParsersLoop collectProgress variants files.length 0 []
          initialFactoryState files).2 =
        (List.range files.length).map
          (fun (i : Nat) => ("Parsing proto files",
            ((i : ℚ) / (files.length : ℚ)) * 100))) := by
  constructor
  · intro L onProgress l0 variants files
    rw [createParsersLoop_fst]
    show _ = createParsers variants files
    unfold createParsers
    rw [createParsersLoop_fst]
  · intro variants files
    rw [createParsersLoop_events]
    simp only [List.nil_append]
    apply List.map_congr_left
    intro i _
    norm_num

/-! ## Parser selection: first accepting variant, unsupported format -/

theorem tryVariants_first_success (pre : List Variant) (v : Variant)
    (post : List Variant) (f : TraceFile) (r : TrialResult)
    (hpre : ∀ w ∈ pre, ∃ e, w f = Except.error e)
    (hv : v f = Except.ok r) :
    tryVariants (pre ++ v :: post) f = some r := by
  induction pre with
  | nil => simp [tryVariants, hv]
  | cons w rest ih =>
    obtain ⟨e, he⟩ := hpre w (List.mem_cons_self w rest)
    simp only [List.cons_append, tryVariants, he]
    exact ih (fun u hu => hpre u (List.mem_cons_of_mem w hu))

theorem tryVariants_all_fail (variants : List Variant) (f : TraceFile)
    (h : ∀ v ∈ variants, ∃ e, v f = Except.error e) :
    tryVariants variants f = none := by
  induction variants with
  | nil => rfl
  | cons v rest ih =>
    obtain ⟨e, he⟩ := h v (List.mem_cons_self v rest)
    simp only [tryVariants, he]
    exact ih (fun u hu => h u (List.mem_cons_of_mem v hu))

/-- C2: parser selection. Variants are tried in list order and the first
one whose construction-and-parse succeeds is accepted; when every variant
fails on a file, exactly one UNSUPPORTED_FORMAT error carrying the file's
descriptor is appended and the loop continues with the remaining files
rather than aborting; createParsers returns exactly the pairs and errors
accumulated by that loop. -/
theorem parser_selection_first_variant :
    (∀ (pre : List Variant) (v : Variant) (post : List Variant)
        (f : TraceFile) (r : TrialResult),
      (∀ w ∈ pre, ∃ e, w f = Except.error e) → v f = Except.ok r →
        tryVariants (pre ++ v :: post) f = some r) ∧
    (∀ (variants : List Variant) (st : FactoryState) (f : TraceFile),
      (∀ v ∈ variants, ∃ e, v f = Except.error e) →
        processFile variants st f =
          ⟨st.parsers, st.pairs, st.errors ++ [unsupportedError f]⟩) ∧
    (∀ (variants : List Variant) (st : FactoryState) (f : TraceFile)
        (rest : List TraceFile),
      (∀ v ∈ variants, ∃ e, v f = Except.error e) →
        processFiles variants st (f :: rest) =
          processFiles variants
            ⟨st.parsers, st.pairs, st.errors ++ [unsupportedError f]⟩ rest) ∧
    (∀ (variants : List Variant) (files : List TraceFile),
      createParsers variants files =
        ((processFiles variants initialFactoryState files).pairs,
         (processFiles variants initialFactoryState files).errors)) := by
  refine ⟨tryVariants_first_success, ?_, ?_, ?_⟩
  · intro variants st f h
    simp [processFile, tryVariants_all_fail variants f h]
  · intro variants st f rest h
    simp only [processFiles]
    congr 1
    simp [processFile, tryVariants_all_fail variants f h]
  · intro variants files
    unfold createParsers
    rw [createParsersLoop_fst]

/-- A concrete always-throwing variant, for witnesses. -/
def failingVariant : Variant := fun _ => Except.error "bad magic number"

/-- A concrete always-accepting variant, for witnesses. -/
def acceptingVariant : Variant :=
  fun _ => Except.ok (TrialResult.single ⟨3, ["t.pb"], 5⟩)

theorem parser_selection_first_variant_witness :
    (∀ w ∈ [failingVariant],
      ∃ e, w (⟨"t", "t.pb"⟩ : TraceFile) = Except.error e) ∧
    tryVariants ([failingVariant] ++ acceptingVariant :: []) ⟨"t", "t.pb"⟩ =
      some (TrialResult.single ⟨3, ["t.pb"], 5⟩) ∧
    processFile [failingVariant] initialFactoryState ⟨"t", "t.pb"⟩ =
      ⟨initialFactoryState.parsers, initialFactoryState.pairs,
       initialFactoryState.errors ++ [unsupportedError ⟨"t", "t.pb"⟩]⟩ ∧
    processFiles [failingVariant]
        initialFactoryState [⟨"t", "t.pb"⟩, ⟨"u", "u.pb"⟩] =
      processFiles [failingVariant]
        ⟨initialFactoryState.parsers, initialFactoryState.pairs,
         initialFactoryState.errors ++ [unsupportedError ⟨"t", "t.pb"⟩]⟩
        [⟨"u", "u.pb"⟩] := by
  have hfail : ∀ w ∈ [failingVariant],
      ∃ e, w (⟨"t", "t.pb"⟩ : TraceFile) = Except.error e := by
    intro w hw
    rw [List.mem_singleton] at hw
    exact ⟨"bad magic number", by rw [hw]; rfl⟩
  refine ⟨hfail, ?_, ?_, ?_⟩
  · exact parser_selection_first_variant.1 _ _ [] _ _ hfail rfl
  · exact parser_selection_first_variant.2.1 _ _ _ hfail
  · exact parser_selection_first_variant.2.2.1 _ _ _ _ hfail

/-! ## Error propagation totality -/

theorem createParsers_eq_processFiles (variants : List Variant)
    (files : List TraceFile) :
    createParsers variants files =
      ((processFiles variants initialFactoryState files).pairs,
       (processFiles variants initialFactoryState files).errors) := by
  unfold createParsers
  rw [createParsersLoop_fst]

theorem tryVariantsExc_ok (variants : List Variant) (f : TraceFile) :
    tryVariantsExc variants f = Except.ok (tryVariants variants f) := by
  induction variants with
  | nil => rfl
  | cons v rest ih =>
    simp only [tryVariantsExc, tryVariants]
    cases v f with
    | ok r => rfl
    | error e => exact ih

theorem createParsersExcLoop_ok (variants : List Variant)
    (files : List TraceFile) :
    ∀ st : FactoryState,
      createParsersExcLoop variants st files =
        Except.ok (processFiles variants st files) := by
  induction files with
  | nil => intro st; rfl
  | cons f rest ih =>
    intro st
    simp only [createParsersExcLoop, processFiles, tryVariantsExc_ok,
      bind, Except.bind, processFile]
    exact ih _

/-- Forgetting the exception payload of one trial outcome. -/
def excToOption (r : Except String TrialResult) : Option TrialResult :=
  match r with
  | Except.ok v => some v
  | Except.error _ => none

theorem tryVariants_congr (f : TraceFile) :
    ∀ {variants₁ variants₂ : List Variant},
      List.Forall₂ (fun v w => ∀ g, excToOption (v g) = excToOption (w g))
        variants₁ variants₂ →
      tryVariants variants₁ f = tryVariants variants₂ f := by
  intro variants₁ variants₂ h
  induction h with
  | nil => rfl
  | cons hvw _htail ih =>
    rename_i v w l₁ l₂
    have hf := hvw f
    simp only [tryVariants]
    cases hv : v f with
    | ok r =>
      rw [hv] at hf
      cases hw : w f with
      | ok s => rw [hw] at hf; simp [excToOption] at hf; rw [hf]
      | error e => rw [hw] at hf; simp [excToOption] at hf
    | error e =>
      rw [hv] at hf
      cases hw : w f with
      | ok s => rw [hw] at hf; simp [excToOption] at hf
      | error e' => exact ih

theorem processFiles_congr {variants₁ variants₂ : List Variant}
    (h : List.Forall₂ (fun v w => ∀ g, excToOption (v g) = excToOption (w g))
      variants₁ variants₂) (files : List TraceFile) :
    ∀ st : FactoryState,
      processFiles variants₁ st files = processFiles variants₂ st files := by
  induction files with
  | nil => intro st; rfl
  | cons f rest ih =>
    intro st
    simp only [processFiles, processFile, tryVariants_congr f h]
    exact ih _

/-- C8: error propagation totality. In the Except-monad embedding of
createParsers, whose only handler is the try/catch around each variant
trial, the run always returns normally with the accumulated batch of
parsers and errors (never an uncaught exception); moreover the outcome is
unchanged when every variant's thrown exception payloads are replaced
arbitrarily (exceptions are swallowed, serving only as the signal to try
the next variant). -/
theorem error_propagation_totality :
    (∀ (variants : List Variant) (files : List TraceFile),
      createParsersExc variants files =
        Except.ok (createParsers variants files)) ∧
    (∀ (variants₁ variants₂ : List Variant) (files : List TraceFile),
      List.Forall₂ (fun v w => ∀ g, excToOption (v g) = excToOption (w g))
        variants₁ variants₂ →
      createParsersExc variants₁ files = createParsersExc variants₂ files) := by
  constructor
  · intro variants files
    unfold createParsersExc
    rw [createParsersExcLoop_ok, createParsers_eq_processFiles]
    rfl
  · intro variants₁ variants₂ files h
    unfold createParsersExc
    rw [createParsersExcLoop_ok, createParsersExcLoop_ok,
      processFiles_congr h]

/-- A second always-throwing variant whose payload differs from
failingVariant's. -/
def failingVariantAlt : Variant := fun _ => Except.error "truncated file"

theorem error_propagation_totality_witness :
    List.Forall₂ (fun v w => ∀ g, excToOption (v g) = excToOption (w g))
      [failingVariant] [failingVariantAlt] ∧
    createParsersExc [failingVariant] [⟨"t", "t.pb"⟩] =
      createParsersExc [failingVariantAlt] [⟨"t", "t.pb"⟩] ∧
    createParsersExc [failingVariant] [⟨"t", "t.pb"⟩] =
      Except.ok (createParsers [failingVariant] [⟨"t", "t.pb"⟩]) := by
  have hrel : List.Forall₂ (fun v w => ∀ g, excToOption (v g) = excToOption (w g))
      [failingVariant] [failingVariantAlt] :=
    List.Forall₂.cons (fun _g => rfl) List.Forall₂.nil
  exact ⟨hrel, error_propagation_totality.2 _ _ _ hrel,
    error_propagation_totality.1 [failingVariant] [⟨"t", "t.pb"⟩]⟩

/-! ## Conflict-free load -/

theorem processFiles_all_fresh (variants : List Variant)
    (pf : TraceFile → Parser) :
    ∀ (files : List TraceFile) (st : FactoryState),
      (∀ f ∈ files, tryVariants variants f =
        some (TrialResult.single (pf f))) →
      files.Pairwise (fun f g => (pf f).traceType ≠ (pf g).traceType) →
      (∀ f ∈ files, mapGet st.parsers (pf f).traceType = none) →
      processFiles variants st files =
        ⟨st.parsers ++ files.map (fun f => ((pf f).traceType, pf f)),
         st.pairs ++ files.map (fun f => (f, pf f)),
         st.errors⟩ := by
  intro files
  induction files with
  | nil => intro st _ _ _; simp [processFiles]
  | cons f rest ih =>
    intro st htry hpair hfresh
    have htf := htry f (List.mem_cons_self f rest)
    have hmf := hfresh f (List.mem_cons_self f rest)
    have hstep : processFile variants st f =
        ⟨st.parsers ++ [((pf f).traceType, pf f)],
         st.pairs ++ [(f, pf f)], st.errors⟩ := by
      simp only [processFile, htf, maybeAddParser, shouldUseParser, hmf]
      simp [mapGet_mapSet_absent st.parsers (pf f).traceType (pf f) hmf]
    have hne : ∀ g ∈ rest, (pf f).traceType ≠ (pf g).traceType :=
      (List.pairwise_cons.mp hpair).1
    simp only [processFiles, hstep]
    rw [ih ⟨st.parsers ++ [((pf f).traceType, pf f)],
        st.pairs ++ [(f, pf f)], st.errors⟩
      (fun g hg => htry g (List.mem_cons_of_mem f hg))
      (List.pairwise_cons.mp hpair).2
      (fun g hg => by
        have := mapGet_append_single st.parsers (pf f).traceType
          (pf g).traceType (pf f) (hfresh g (List.mem_cons_of_mem f hg))
        simpa [hne g hg] using this)]
    simp

/-- C6: conflict-free load. When exactly one parser variant accepts each
input file (all variants before and after it fail), the accepted parsers
are plain (no fan-out), and no two accepted parsers share a trace type,
createParsers returns exactly one (file, parser) pair per input file in
order, an empty error list (in particular zero OVERRIDE errors), and the
per-type parser map holds exactly one entry per file, keyed by its
distinct trace type. -/
theorem conflict_free_load (variants : List Variant)
    (pf : TraceFile → Parser) (files : List TraceFile)
    (haccept : ∀ f ∈ files, ∃ pre v post,
      variants = pre ++ v :: post ∧
      (∀ w ∈ pre, ∃ e, w f = Except.error e) ∧
      v f = Except.ok (TrialResult.single (pf f)) ∧
      (∀ w ∈ post, ∃ e, w f = Except.error e))
    (hdistinct : files.Pairwise
      (fun f g => (pf f).traceType ≠ (pf g).traceType)) :
    processFiles variants initialFactoryState files =
      ⟨files.map (fun f => ((pf f).traceType, pf f)),
       files.map (fun f => (f, pf f)), []⟩ ∧
    createParsers variants files =
      (files.map (fun f => (f, pf f)), []) := by
  have htry : ∀ f ∈ files,
      tryVariants variants f = some (TrialResult.single (pf f)) := by
    intro f hf
    obtain ⟨pre, v, post, hsplit, hpre, hok, _⟩ := haccept f hf
    rw [hsplit]
    exact tryVariants_first_success pre v post f _ hpre hok
  have hmain := processFiles_all_fresh variants pf files initialFactoryState
    htry hdistinct (fun f _ => rfl)
  refine ⟨by simpa [initialFactoryState] using hmain, ?_⟩
  rw [createParsers_eq_processFiles, hmain]
  simp [initialFactoryState]

/-- Concrete input for the conflict-free witness: variant accepting only
files named "a". -/
def variantOnlyA : Variant := fun f =>
  if f.name == "a" then Except.ok (TrialResult.single ⟨1, ["a.pb"], 4⟩)
  else Except.error "not an A trace"

/-- Concrete input for the conflict-free witness: variant accepting only
files named "b". -/
def variantOnlyB : Variant := fun f =>
  if f.name == "b" then Except.ok (TrialResult.single ⟨2, ["b.pb"], 6⟩)
  else Except.error "not a B trace"

/-- The parser each witness file is accepted with. -/
def witnessPf : TraceFile → Parser := fun f =>
  if f.name == "a" then ⟨1, ["a.pb"], 4⟩ else ⟨2, ["b.pb"], 6⟩

theorem conflict_free_load_witness :
    processFiles [variantOnlyA, variantOnlyB] initialFactoryState
        [⟨"a", "a.pb"⟩, ⟨"b", "b.pb"⟩] =
      ⟨[(1, ⟨1, ["a.pb"], 4⟩), (2, ⟨2, ["b.pb"], 6⟩)],
       [(⟨"a", "a.pb"⟩, ⟨1, ["a.pb"], 4⟩), (⟨"b", "b.pb"⟩, ⟨2, ["b.pb"], 6⟩)],
       []⟩ ∧
    createParsers [variantOnlyA, variantOnlyB] [⟨"a", "a.pb"⟩, ⟨"b", "b.pb"⟩] =
      ([(⟨"a", "a.pb"⟩, ⟨1, ["a.pb"], 4⟩), (⟨"b", "b.pb"⟩, ⟨2, ["b.pb"], 6⟩)],
       []) := by
  have haccept : ∀ f ∈ [(⟨"a", "a.pb"⟩ : TraceFile), ⟨"b", "b.pb"⟩],
      ∃ pre v post,
        [variantOnlyA, variantOnlyB] = pre ++ v :: post ∧
        (∀ w ∈ pre, ∃ e, w f = Except.error e) ∧
        v f = Except.ok (TrialResult.single (witnessPf f)) ∧
        (∀ w ∈ post, ∃ e, w f = Except.error e) := by
    intro f hf
    simp only [List.mem_cons, List.not_mem_nil, or_false] at hf
    rcases hf with rfl | rfl
    · exact ⟨[], variantOnlyA, [variantOnlyB], rfl,
        fun w hw => absurd hw (List.not_mem_nil w),
        rfl,
        fun w hw => by
          rw [List.mem_singleton] at hw
          exact ⟨"not a B trace", by rw [hw]; rfl⟩⟩
    · exact ⟨[variantOnlyA], variantOnlyB, [], rfl,
        fun w hw => by
          rw [List.mem_singleton] at hw
          exact ⟨"not an A trace", by rw [hw]; rfl⟩,
        rfl,
        fun w hw => absurd hw (List.not_mem_nil w)⟩
  have hdistinct : List.Pairwise
      (fun f g => (witnessPf f).traceType ≠ (witnessPf g).traceType)
      [(⟨"a", "a.pb"⟩ : TraceFile), ⟨"b", "b.pb"⟩] := by
    refine List.Pairwise.cons ?_ (List.pairwise_singleton _ _)
    intro g hg
    rw [List.mem_singleton] at hg
    subst hg
    decide
  have h := conflict_free_load [variantOnlyA, variantOnlyB] witnessPf
    [⟨"a", "a.pb"⟩, ⟨"b", "b.pb"⟩] haccept hdistinct
  constructor
  · have := h.1
    simpa [witnessPf] using this
  · have := h.2
    simpa [witnessPf] using this

/-! ## Derived transition root properties -/

/-- Specification-side counterpart of makeProperties, written from the
claim's words for comparison with the source embedding: exactly two
calculated properties, the id taken from wmData's id child when present
and otherwise shellData's, the offset taken from shellData's child when
present and otherwise wmData's, except that an aborted child flips the
offset preference to wmData; with no candidate for either value, failure. -/
def specRootProperties (value wmData shellData : PropertyTreeNode) :
    Option (List PropertyTreeNode) :=
  let idCand :=
    if (wmData.getChildByName "id").isSome then wmData.getChildByName "id"
    else shellData.getChildByName "id"
  let offCand :=
    if (value.getChildByName "aborted").isSome then
      if (wmData.getChildByName "realToElapsedTimeOffsetNs").isSome then
        wmData.getChildByName "realToElapsedTimeOffsetNs"
      else shellData.getChildByName "realToElapsedTimeOffsetNs"
    else
      if (shellData.getChildByName "realToElapsedTimeOffsetNs").isSome then
        shellData.getChildByName "realToElapsedTimeOffsetNs"
      else wmData.getChildByName "realToElapsedTimeOffsetNs"
  match idCand, offCand with
  | some i, some o =>
    some [makeCalculatedProperty value.id "id" i.getValue,
      makeCalculatedProperty value.id "realToElapsedTimeOffsetNs" o.getValue]
  | _, _ => none

/-- C9: derived transition root properties. For every transition property
tree with wmData and shellData children, makeProperties agrees with the
claim-side description: exactly two calculated properties, id from wmData
falling back to shellData, offset from shellData falling back to wmData
unless an aborted child is present (then wmData preferred), and failure
when either value has no candidate. -/
theorem add_root_properties_spec (value wmData shellData : PropertyTreeNode)
    (hwm : value.getChildByName "wmData" = some wmData)
    (hsh : value.getChildByName "shellData" = some shellData) :
    makeProperties value = specRootProperties value wmData shellData := by
  simp only [makeProperties, specRootProperties, hwm, hsh, Option.bind_eq_bind,
    Option.some_bind]
  cases hidw : wmData.getChildByName "id" <;>
    cases hids : shellData.getChildByName "id" <;>
      cases habort : value.getChildByName "aborted" <;>
        cases hoffw : wmData.getChildByName "realToElapsedTimeOffsetNs" <;>
          cases hoffs : shellData.getChildByName "realToElapsedTimeOffsetNs" <;>
            simp [Option.isSome]

/-- Sample transition entry for the witness: wmData carries an id, only
shellData carries the time offset, no aborted child. -/
def witnessWmData : PropertyTreeNode :=
  PropertyTreeNode.node "e.wmData" "wmData" PropertySource.PROTO 0 ""
    [PropertyTreeNode.node "e.wmData.id" "id" PropertySource.PROTO 10 "10" []]

/-- Sample shellData node for the witness. -/
def witnessShellData : PropertyTreeNode :=
  PropertyTreeNode.node "e.shellData" "shellData" PropertySource.PROTO 0 ""
    [PropertyTreeNode.node "e.shellData.id" "id" PropertySource.PROTO 20 "20" [],
     PropertyTreeNode.node "e.shellData.realToElapsedTimeOffsetNs"
       "realToElapsedTimeOffsetNs" PropertySource.PROTO 99 "99" []]

/-- Sample transition root for the witness. -/
def witnessTransitionRoot : PropertyTreeNode :=
  PropertyTreeNode.node "e" "e" PropertySource.PROTO 0 ""
    [witnessWmData, witnessShellData]

theorem add_root_properties_spec_witness :
    witnessTransitionRoot.getChildByName "wmData" = some witnessWmData ∧
    witnessTransitionRoot.getChildByName "shellData" = some witnessShellData ∧
    makeProperties witnessTransitionRoot =
      specRootProperties witnessTransitionRoot witnessWmData witnessShellData ∧
    makeProperties witnessTransitionRoot =
      some [PropertyTreeNode.node "e.id" "id" PropertySource.CALCULATED 10 "" [],
        PropertyTreeNode.node "e.realToElapsedTimeOffsetNs"
          "realToElapsedTimeOffsetNs" PropertySource.CALCULATED 99 "" []] :=
  ⟨rfl, rfl, add_root_properties_spec witnessTransitionRoot witnessWmData
    witnessShellData rfl rfl, rfl⟩

/-! ## Diff engine: rendered projection and uniqueness of sibling names -/

/-- A property is excluded from diffing when its name is deny-listed or
its source is CALCULATED. -/
def excludedProperty (p : PropertyTreeNode) : Bool :=
  DENYLIST_PROPERTY_NAMES.contains p.name ||
    p.source == PropertySource.CALCULATED

/-- The observable rendering of a property tree: name, rendered display
value on leaves, and the non-excluded children, recursively projected. -/
inductive RenderedTree where
  | node (name : String) (leafValue : Option String)
      (children : List RenderedTree)

mutual

/-- The projection of one property node to its observable rendering. -/
def rendered : PropertyTreeNode → RenderedTree
  | PropertyTreeNode.node _ n _ _ fv cs =>
    RenderedTree.node n
      (match cs with
       | [] => some fv
       | _ :: _ => none)
      (renderedList cs)

/-- The projection of a child list, dropping excluded properties. -/
def renderedList : List PropertyTreeNode → List RenderedTree
  | [] => []
  | c :: rest =>
    if excludedProperty c then renderedList rest
    else rendered c :: renderedList rest

end

def RenderedTree.name : RenderedTree → String
  | RenderedTree.node n _ _ => n

theorem rendered_name (t : PropertyTreeNode) :
    (rendered t).name = t.name := by
  cases t
  rfl

/-- Pairwise distinctness of the names of a child list. -/
def namesNodup : List PropertyTreeNode → Bool
  | [] => true
  | c :: rest => !(rest.any (fun d => d.name == c.name)) && namesNodup rest

mutual

/-- Well-formedness of a property tree per the data model: the name of
each property is unique among its siblings, at every depth. -/
def uniqueSiblingNames : PropertyTreeNode → Bool
  | PropertyTreeNode.node _ _ _ _ _ cs =>
    namesNodup cs && uniqueSiblingNamesList cs

def uniqueSiblingNamesList : List PropertyTreeNode → Bool
  | [] => true
  | c :: rest => uniqueSiblingNames c && uniqueSiblingNamesList rest

end

theorem mem_renderedList {p : PropertyTreeNode} {l : List PropertyTreeNode}
    (hp : p ∈ l) (hex : excludedProperty p = false) :
    rendered p ∈ renderedList l := by
  induction l with
  | nil => cases hp
  | cons c rest ih =>
    rcases List.mem_cons.mp hp with rfl | hmem
    · simp [renderedList, hex]
    · by_cases hc : excludedProperty c = true
      · simp [renderedList, hc, ih hmem]
      · simp only [Bool.not_eq_true] at hc
        simp [renderedList, hc, ih hmem]

theorem renderedList_mem_inv {x : RenderedTree} {l : List PropertyTreeNode}
    (hx : x ∈ renderedList l) :
    ∃ q ∈ l, excludedProperty q = false ∧ rendered q = x := by
  induction l with
  | nil => simp [renderedList] at hx
  | cons c rest ih =>
    by_cases hc : excludedProperty c = true
    · simp only [renderedList, hc, if_true] at hx
      obtain ⟨q, hq, hqe, hqr⟩ := ih hx
      exact ⟨q, List.mem_cons_of_mem c hq, hqe, hqr⟩
    · simp only [Bool.not_eq_true] at hc
      simp only [renderedList, hc, Bool.false_eq_true, if_false,
        List.mem_cons] at hx
      rcases hx with rfl | hx
      · exact ⟨c, List.mem_cons_self c rest, hc, rfl⟩
      · obtain ⟨q, hq, hqe, hqr⟩ := ih hx
        exact ⟨q, List.mem_cons_of_mem c hq, hqe, hqr⟩

theorem find_name_nodup {cs : List PropertyTreeNode} {q : PropertyTreeNode}
    (hn : namesNodup cs = true) (hq : q ∈ cs) :
    cs.find? (fun c => c.name == q.name) = some q := by
  induction cs with
  | nil => cases hq
  | cons c rest ih =>
    simp only [namesNodup, Bool.and_eq_true, Bool.not_eq_true'] at hn
    rcases List.mem_cons.mp hq with rfl | hmem
    · simp [List.find?]
    · have hne : ¬(c.name == q.name) = true := by
        intro hcq
        have : rest.any (fun d => d.name == c.name) = true :=
          List.any_eq_true.mpr ⟨q, hmem, by
            simp only [beq_iff_eq] at hcq ⊢
            exact hcq.symm⟩
        rw [hn.1] at this
        cases this
      rw [List.find?]
      simp only [hne]
      exact ih hn.2 hmem

theorem uniqueSiblingNamesList_mem {cs : List PropertyTreeNode}
    {q : PropertyTreeNode} (h : uniqueSiblingNamesList cs = true)
    (hq : q ∈ cs) : uniqueSiblingNames q = true := by
  induction cs with
  | nil => cases hq
  | cons c rest ih =>
    simp only [uniqueSiblingNamesList, Bool.and_eq_true] at h
    rcases List.mem_cons.mp hq with rfl | hmem
    · exact h.1
    · exact ih h.2 hmem

mutual

theorem rendered_eq_not_modified (newP oldP : PropertyTreeNode)
    (hu : uniqueSiblingNames oldP = true)
    (he : rendered newP = rendered oldP) :
    isChildPropertyModified newP oldP = false := by
  cases newP with
  | node ni nn ns nv nf ncs =>
  cases oldP with
  | node oi oname osrc oval ofmt ocs =>
  simp only [rendered, RenderedTree.node.injEq] at he
  simp only [uniqueSiblingNames, Bool.and_eq_true] at hu
  simp only [isChildPropertyModified]
  refine rendered_eq_checkChildren ncs
    (PropertyTreeNode.node oi oname osrc oval ofmt ocs) ?_
  intro p hp hex
  have hrp := mem_renderedList hp hex
  rw [he.2.2] at hrp
  obtain ⟨q, hq, _hqe, hqr⟩ := renderedList_mem_inv hrp
  have hname : q.name = p.name := by
    rw [← rendered_name q, hqr, rendered_name]
  refine ⟨q, ?_, uniqueSiblingNamesList_mem hu.2 hq, hqr.symm⟩
  simp only [PropertyTreeNode.getChildByName, PropertyTreeNode.getAllChildren]
  rw [← hname]
  exact find_name_nodup hu.1 hq

theorem rendered_eq_checkChildren (ncs : List PropertyTreeNode)
    (oldP : PropertyTreeNode)
    (h : ∀ p ∈ ncs, excludedProperty p = false →
      ∃ q, oldP.getChildByName p.name = some q ∧
        uniqueSiblingNames q = true ∧ rendered p = rendered q) :
    checkChildrenModified ncs oldP = false := by
  cases ncs with
  | nil => rfl
  | cons p rest =>
    have hrest : checkChildrenModified rest oldP = false :=
      rendered_eq_checkChildren rest oldP
        (fun u hu hue => h u (List.mem_cons_of_mem p hu) hue)
    by_cases hden : p.name ∈ DENYLIST_PROPERTY_NAMES
    · simp [checkChildrenModified, hden, hrest]
    · by_cases hcalc : p.source = PropertySource.CALCULATED
      · simp [checkChildrenModified, hden, hcalc, hrest]
      · have hex : excludedProperty p = false := by
          simp [excludedProperty, hden, hcalc]
        obtain ⟨q, hfound, hqu, hre⟩ :=
          h p (List.mem_cons_self p rest) hex
        cases p with
        | node pi pn ps pv pf pcs =>
        cases q with
        | node qi qn qs qv qf qcs =>
        simp only [PropertyTreeNode.name, PropertyTreeNode.source] at hden hcalc hfound
        cases pcs with
        | nil =>
          cases qcs with
          | nil =>
            simp only [rendered, RenderedTree.node.injEq,
              Option.some.injEq] at hre
            simp [checkChildrenModified, hden, hcalc, hfound,
              PropertyTreeNode.getAllChildren, isPropertyNodeModified,
              PropertyTreeNode.formattedValue, PropertyTreeNode.name,
              PropertyTreeNode.source, hre.2.1, hrest]
          | cons qc qcs' =>
            simp only [rendered, RenderedTree.node.injEq] at hre
            exact absurd hre.2.1 (by simp)
        | cons pc pcs' =>
          have hinner : isChildPropertyModified
              (PropertyTreeNode.node pi pn ps pv pf (pc :: pcs'))
              (PropertyTreeNode.node qi qn qs qv qf qcs) = false :=
            rendered_eq_not_modified _ _ hqu hre
          simp [checkChildrenModified, hden, hcalc, hfound,
            PropertyTreeNode.getAllChildren, PropertyTreeNode.name,
            PropertyTreeNode.source, hinner, hrest]

end

/-- C3: diff engine idempotence. Checking a hierarchy node against one
whose non-excluded properties render to the same values (in particular,
against itself) reports unmodified, at every depth of the property
recursion, even when deny-listed or CALCULATED properties differ; the old
node's sibling names are unique per the data model. -/
theorem diff_engine_idempotence (newT oldT : HierarchyTreeNode)
    (hu : uniqueSiblingNames oldT.properties = true)
    (he : rendered newT.properties = rendered oldT.properties) :
    isHierarchyTreeModified (some newT) (some oldT) = false := by
  cases hr : newT.isRoot <;>
    simp [isHierarchyTreeModified, hr, rendered_eq_not_modified _ _ hu he]

/-- Old property subtree for the idempotence witness: one observed
property, one deny-listed property, one calculated property. -/
def witnessOldProps : PropertyTreeNode :=
  PropertyTreeNode.node "n" "n" PropertySource.PROTO 0 ""
    [PropertyTreeNode.node "n.x" "x" PropertySource.PROTO 1 "ONE" [],
     PropertyTreeNode.node "n.dpiX" "dpiX" PropertySource.PROTO 160 "160" [],
     PropertyTreeNode.node "n.r" "cornerRadius" PropertySource.CALCULATED 2 "2" []]

/-- New property subtree for the idempotence witness: same observed
property, but different deny-listed and calculated values. -/
def witnessNewProps : PropertyTreeNode :=
  PropertyTreeNode.node "n" "n" PropertySource.PROTO 0 ""
    [PropertyTreeNode.node "n.x" "x" PropertySource.PROTO 1 "ONE" [],
     PropertyTreeNode.node "n.dpiX" "dpiX" PropertySource.PROTO 320 "320" [],
     PropertyTreeNode.node "n.r" "cornerRadius" PropertySource.CALCULATED 5 "5" []]

theorem diff_engine_idempotence_witness :
    uniqueSiblingNames witnessOldProps = true ∧
    rendered witnessNewProps = rendered witnessOldProps ∧
    isHierarchyTreeModified (some ⟨false, witnessNewProps⟩)
      (some ⟨false, witnessOldProps⟩) = false ∧
    isHierarchyTreeModified (some ⟨false, witnessNewProps⟩)
      (some ⟨false, witnessNewProps⟩) = false :=
  ⟨rfl, rfl,
    diff_engine_idempotence ⟨false, witnessNewProps⟩ ⟨false, witnessOldProps⟩
      rfl rfl,
    diff_engine_idempotence ⟨false, witnessNewProps⟩ ⟨false, witnessNewProps⟩
      rfl rfl⟩

/-! ## Diff engine: characterization of reported modifications -/

/-- A modified descendant, per the claimed comparison semantics: a
non-excluded child of the new node with no same-name child in the old
node, a matched leaf whose rendered values differ, or a matched non-leaf
with a modified descendant of its own. -/
inductive HasModifiedChild : PropertyTreeNode → PropertyTreeNode → Prop where
  | added (newP oldP p : PropertyTreeNode)
      (hmem : p ∈ newP.getAllChildren)
      (hex : excludedProperty p = false)
      (hnone : oldP.getChildByName p.name = none) :
      HasModifiedChild newP oldP
  | leafChanged (newP oldP p q : PropertyTreeNode)
      (hmem : p ∈ newP.getAllChildren)
      (hex : excludedProperty p = false)
      (hfound : oldP.getChildByName p.name = some q)
      (hleaf : p.getAllChildren = [])
      (hne : p.formattedValue ≠ q.formattedValue) :
      HasModifiedChild newP oldP
  | nested (newP oldP p q : PropertyTreeNode)
      (hmem : p ∈ newP.getAllChildren)
      (hex : excludedProperty p = false)
      (hfound : oldP.getChildByName p.name = some q)
      (hnl : p.getAllChildren ≠ [])
      (hrec : HasModifiedChild p q) :
      HasModifiedChild newP oldP

theorem isChildPropertyModified_eq (t oldP : PropertyTreeNode) :
    isChildPropertyModified t oldP =
      checkChildrenModified t.getAllChildren oldP := by
  cases t
  rfl

theorem checkChildren_mono (c : PropertyTreeNode)
    (rest : List PropertyTreeNode) (oldP : PropertyTreeNode)
    (h : checkChildrenModified rest oldP = true) :
    checkChildrenModified (c :: rest) oldP = true := by
  simp only [checkChildrenModified]
  by_cases hden : c.name ∈ DENYLIST_PROPERTY_NAMES
  · simp [hden, h]
  · by_cases hcalc : c.source = PropertySource.CALCULATED
    · simp [hden, hcalc, h]
    · cases hfound : oldP.getChildByName c.name with
      | none => simp [hden, hcalc, hfound]
      | some q => simp [hden, hcalc, hfound, h]

theorem checkChildren_of_mem (ncs : List PropertyTreeNode)
    (oldP p : PropertyTreeNode) (hmem : p ∈ ncs)
    (hex : excludedProperty p = false)
    (hloc : oldP.getChildByName p.name = none ∨
      ∃ q, oldP.getChildByName p.name = some q ∧
        ((p.getAllChildren = [] ∧ p.formattedValue ≠ q.formattedValue) ∨
         (p.getAllChildren ≠ [] ∧ isChildPropertyModified p q = true))) :
    checkChildrenModified ncs oldP = true := by
  induction ncs with
  | nil => cases hmem
  | cons c rest ih =>
    rcases List.mem_cons.mp hmem with rfl | hmem'
    · have hor : p.name ∉ DENYLIST_PROPERTY_NAMES ∧
          ¬p.source = PropertySource.CALCULATED := by
        constructor
        · intro hin
          simp [excludedProperty, hin] at hex
        · intro hcal
          simp [excludedProperty, hcal] at hex
      rcases hloc with hnone | ⟨q, hfound, hcase⟩
      · simp [checkChildrenModified, hor.1, hor.2, hnone]
      · rcases hcase with ⟨hleaf, hne⟩ | ⟨hnl, hcm⟩
        · have hpm : isPropertyNodeModified (some p) (some q) = true := by
            simp [isPropertyNodeModified, bne]
            exact fun heq => absurd heq.symm hne
          simp [checkChildrenModified, hor.1, hor.2, hfound, hleaf, hpm]
        · have hlen : p.getAllChildren.length ≠ 0 := by
            simpa [List.length_eq_zero] using hnl
          simp [checkChildrenModified, hor.1, hor.2, hfound, hlen, hcm]
    · exact checkChildren_mono c rest oldP (ih hmem')

theorem hasModifiedChild_imp (newP oldP : PropertyTreeNode)
    (h : HasModifiedChild newP oldP) :
    isChildPropertyModified newP oldP = true := by
  induction h with
  | added np op p hmem hex hnone =>
    rw [isChildPropertyModified_eq]
    exact checkChildren_of_mem _ _ p hmem hex (Or.inl hnone)
  | leafChanged np op p q hmem hex hfound hleaf hne =>
    rw [isChildPropertyModified_eq]
    exact checkChildren_of_mem _ _ p hmem hex
      (Or.inr ⟨q, hfound, Or.inl ⟨hleaf, hne⟩⟩)
  | nested np op p q hmem hex hfound hnl _hrec ih =>
    rw [isChildPropertyModified_eq]
    exact checkChildren_of_mem _ _ p hmem hex
      (Or.inr ⟨q, hfound, Or.inr ⟨hnl, ih⟩⟩)

mutual

theorem modified_imp_hasChild (newP oldP : PropertyTreeNode)
    (h : isChildPropertyModified newP oldP = true) :
    HasModifiedChild newP oldP := by
  cases newP with
  | node ni nn ns nv nf ncs =>
    rw [isChildPropertyModified_eq] at h
    simp only [PropertyTreeNode.getAllChildren] at h
    obtain ⟨p, hmem, hex, hloc⟩ := checkChildren_true_inv ncs oldP h
    rcases hloc with hnone | ⟨q, hfound, hcase⟩
    · exact HasModifiedChild.added _ _ p
        (by simpa [PropertyTreeNode.getAllChildren] using hmem) hex hnone
    · rcases hcase with ⟨hleaf, hne⟩ | ⟨hnl, hrec⟩
      · exact HasModifiedChild.leafChanged _ _ p q
          (by simpa [PropertyTreeNode.getAllChildren] using hmem)
          hex hfound hleaf hne
      · exact HasModifiedChild.nested _ _ p q
          (by simpa [PropertyTreeNode.getAllChildren] using hmem)
          hex hfound hnl hrec

theorem checkChildren_true_inv (ncs : List PropertyTreeNode)
    (oldP : PropertyTreeNode)
    (h : checkChildrenModified ncs oldP = true) :
    ∃ p ∈ ncs, excludedProperty p = false ∧
      (oldP.getChildByName p.name = none ∨
       ∃ q, oldP.getChildByName p.name = some q ∧
         ((p.getAllChildren = [] ∧ p.formattedValue ≠ q.formattedValue) ∨
          (p.getAllChildren ≠ [] ∧ HasModifiedChild p q))) := by
  cases ncs with
  | nil => simp [checkChildrenModified] at h
  | cons c rest =>
    by_cases hden : c.name ∈ DENYLIST_PROPERTY_NAMES
    · have h' : checkChildrenModified rest oldP = true := by
        simpa [checkChildrenModified, hden] using h
      obtain ⟨p, hp, hrest⟩ := checkChildren_true_inv rest oldP h'
      exact ⟨p, List.mem_cons_of_mem c hp, hrest⟩
    · by_cases hcalc : c.source = PropertySource.CALCULATED
      · have h' : checkChildrenModified rest oldP = true := by
          simpa [checkChildrenModified, hden, hcalc] using h
        obtain ⟨p, hp, hrest⟩ := checkChildren_true_inv rest oldP h'
        exact ⟨p, List.mem_cons_of_mem c hp, hrest⟩
      · have hex : excludedProperty c = false := by
          simp [excludedProperty, hden, hcalc]
        cases hfound : oldP.getChildByName c.name with
        | none =>
          exact ⟨c, List.mem_cons_self c rest, hex, Or.inl hfound⟩
        | some q =>
          cases hcs : c.getAllChildren with
          | nil =>
            have h2 := h
            simp [checkChildrenModified, hden, hcalc, hfound, hcs] at h2
            rcases h2 with hpm | hrest
            · have hne : c.formattedValue ≠ q.formattedValue := by
                simp only [isPropertyNodeModified, bne_iff_ne, ne_eq] at hpm
                exact fun heq => hpm heq.symm
              exact ⟨c, List.mem_cons_self c rest, hex,
                Or.inr ⟨q, hfound, Or.inl ⟨hcs, hne⟩⟩⟩
            · obtain ⟨p, hp, hr⟩ := checkChildren_true_inv rest oldP hrest
              exact ⟨p, List.mem_cons_of_mem c hp, hr⟩
          | cons c0 cs0 =>
            have h2 := h
            simp [checkChildrenModified, hden, hcalc, hfound, hcs] at h2
            rcases h2 with hcm | hrest
            · have hrec := modified_imp_hasChild c q hcm
              exact ⟨c, List.mem_cons_self c rest, hex,
                Or.inr ⟨q, hfound, Or.inr ⟨by simp [hcs], hrec⟩⟩⟩
            · obtain ⟨p, hp, hr⟩ := checkChildren_true_inv rest oldP hrest
              exact ⟨p, List.mem_cons_of_mem c hp, hr⟩

end

/-- C4: diff comparison semantics. Leaves (no children on either side)
compare equal exactly when their rendered display values agree, whatever
their raw values; a node reports modified exactly when some descendant,
after deny-list and calculated exclusions, was added or differs; and a
non-excluded new child with no same-name child in the old node always
makes the node report modified. -/
theorem diff_comparison_semantics :
    (∀ p q : PropertyTreeNode,
      p.getAllChildren = [] → q.getAllChildren = [] →
      (isPropertyNodeModified (some p) (some q) = false ↔
        p.formattedValue = q.formattedValue)) ∧
    (∀ newP oldP : PropertyTreeNode,
      (isChildPropertyModified newP oldP = true ↔
        HasModifiedChild newP oldP)) ∧
    (∀ newP oldP p : PropertyTreeNode, p ∈ newP.getAllChildren →
      excludedProperty p = false → oldP.getChildByName p.name = none →
      isChildPropertyModified newP oldP = true) := by
  refine ⟨?_, ?_, ?_⟩
  · intro p q _ _
    simp only [isPropertyNodeModified, bne_eq_false_iff_eq]
    exact eq_comm
  · intro newP oldP
    exact ⟨modified_imp_hasChild newP oldP, hasModifiedChild_imp newP oldP⟩
  · intro newP oldP p hmem hex hnone
    exact hasModifiedChild_imp newP oldP
      (HasModifiedChild.added newP oldP p hmem hex hnone)

/-- Witness leaf whose raw value 3 renders as a flag string. -/
def leafFlagsNew : PropertyTreeNode :=
  PropertyTreeNode.node "n.flags" "flags" PropertySource.PROTO 3
    "FLAG_A | FLAG_B" []

/-- Witness leaf with a different raw value but the same rendering. -/
def leafFlagsOld : PropertyTreeNode :=
  PropertyTreeNode.node "o.flags" "flags" PropertySource.PROTO 99
    "FLAG_A | FLAG_B" []

/-- Witness parent with one observed property of rendered value 1. -/
def parentOrig : PropertyTreeNode :=
  PropertyTreeNode.node "p" "p" PropertySource.PROTO 0 ""
    [PropertyTreeNode.node "p.x" "x" PropertySource.PROTO 1 "1" []]

/-- Witness parent whose x property changed its rendered value. -/
def parentChanged : PropertyTreeNode :=
  PropertyTreeNode.node "p" "p" PropertySource.PROTO 0 ""
    [PropertyTreeNode.node "p.x" "x" PropertySource.PROTO 2 "2" []]

/-- Witness parent carrying a property absent from parentOrig. -/
def parentExtra : PropertyTreeNode :=
  PropertyTreeNode.node "p" "p" PropertySource.PROTO 0 ""
    [PropertyTreeNode.node "p.y" "y" PropertySource.PROTO 1 "1" []]

theorem diff_comparison_semantics_witness :
    isPropertyNodeModified (some leafFlagsNew) (some leafFlagsOld) = false ∧
    HasModifiedChild parentChanged parentOrig ∧
    isChildPropertyModified parentExtra parentOrig = true :=
  ⟨(diff_comparison_semantics.1 leafFlagsNew leafFlagsOld rfl rfl).mpr rfl,
   (diff_comparison_semantics.2.1 parentChanged parentOrig).mp (by rfl),
   diff_comparison_semantics.2.2 parentExtra parentOrig
     (PropertyTreeNode.node "p.y" "y" PropertySource.PROTO 1 "1" [])
     (by simp [parentExtra, PropertyTreeNode.getAllChildren])
     (by rfl) (by rfl)⟩

end Winscope
